import Mathlib

set_option maxHeartbeats 1000000

/-!
Verification of the transcript-to-QA structuring pipeline of the
`audio_text_fun` repository (`src/qwen_llm.py`, `src/app.py`).

The Python functions `remove_think_blocks`, `clean_blank_lines`,
`extract_qa_pairs_from_llm_result` and `split_text_to_qa_pairs` are embedded
as total functions over `List Char` (Python `str.find`, slicing and regex
scanning all operate on code points, which matches `List Char`).

The multi-pair segmenter uses the Python regex
`问[:：](.*?)\n答[:：](.*?)(?=\n问[:：]|$)` with `re.DOTALL`, evaluated by
`re.findall`.  Its semantics are embedded directly: a match starts at a
question marker followed by one colon; the lazy question group is the
shortest span followed by a newline, an answer marker and a colon; the lazy
answer group is the shortest span whose right context is either the
lookahead `\n问[:：]` or the `$` anchor (end of string, or just before one
final trailing newline); scanning resumes at the end of the match.
-/

/-- A question/answer record, the value the Python code stores as the dict
`{'问': question, '答': answer}`. -/
structure QAPair where
  question : String
  answer : String
deriving DecidableEq, Repr

/-- The question marker character. -/
def qmark : Char := '问'

/-- The answer marker character. -/
def amark : Char := '答'

/-- The colon character class `[:：]` of the multi-pair regex. -/
def isColon (c : Char) : Bool := c = ':' || c = '：'

/-- The literal trim set `'：:，,。 　\n'` passed to `str.strip` in
`split_text_to_qa_pairs`: full/half-width colon, full/half-width comma,
full-width period, space, full-width space, newline. -/
def isTrimChar (c : Char) : Bool :=
  c = '：' || c = ':' || c = '，' || c = ',' || c = '。' || c = ' ' || c = '　' || c = '\n'

/-- The characters Python's `str.strip()` (no argument) removes: exactly the
characters `c` with `c.isspace()` true. -/
def pyWhitespace (c : Char) : Bool :=
  c = ' ' || c = '\t' || c = '\n' || c = '\r' || c = '\x0b' || c = '\x0c' ||
  c = '\x1c' || c = '\x1d' || c = '\x1e' || c = '\x1f' || c = '\x85' ||
  c = '\u00a0' || c = '\u1680' ||
  c = '\u2000' || c = '\u2001' || c = '\u2002' || c = '\u2003' || c = '\u2004' ||
  c = '\u2005' || c = '\u2006' || c = '\u2007' || c = '\u2008' || c = '\u2009' ||
  c = '\u200a' || c = '\u2028' || c = '\u2029' || c = '\u202f' || c = '\u205f' ||
  c = '　'

/-- The line terminators recognized by Python's `str.splitlines` (with
`\r\n` treated as a single terminator by `splitlinesAux`). -/
def isLineBreak (c : Char) : Bool :=
  c = '\n' || c = '\r' || c = '\x0b' || c = '\x0c' || c = '\x1c' || c = '\x1d' ||
  c = '\x1e' || c = '\x85' || c = '\u2028' || c = '\u2029'

/-- Python `str.strip(chars)`: drop characters satisfying `p` from both ends. -/
def strip (p : Char → Bool) (l : List Char) : List Char :=
  ((l.dropWhile p).reverse.dropWhile p).reverse

/-- The literal `<think>` open tag. -/
def thinkOpen : List Char := ['<', 't', 'h', 'i', 'n', 'k', '>']

/-- The literal `</think>` close tag. -/
def thinkClose : List Char := ['<', '/', 't', 'h', 'i', 'n', 'k', '>']

/-- Find the first occurrence of `</think>` and return the text after it
(`re`'s lazy `.*?` stops at the first close tag). -/
def findClose : List Char → Option (List Char)
  | [] => none
  | c :: cs =>
    if thinkClose.isPrefixOf (c :: cs) then some ((c :: cs).drop 8)
    else findClose cs

/-- Fuelled scan implementing `re.sub(r"<think>.*?</think>", "", text,
flags=re.DOTALL)`: at each position, if the open tag matches and a close tag
occurs after it, the whole lazy span is deleted and scanning resumes after
the close tag; otherwise the character is kept.  (When the open tag matches
but no close tag follows anywhere, no later match can exist either, since a
close tag cannot start inside the open tag, so the rest is kept verbatim.) -/
def removeThinkFuel : Nat → List Char → List Char
  | 0, l => l
  | _ + 1, [] => []
  | fuel + 1, c :: cs =>
    if thinkOpen.isPrefixOf (c :: cs) then
      match findClose ((c :: cs).drop 7) with
      | some rest => removeThinkFuel fuel rest
      | none => c :: cs
    else c :: removeThinkFuel fuel cs

/-- `remove_think_blocks` from `src/qwen_llm.py`, on character lists. -/
def removeThinkL (l : List Char) : List Char := removeThinkFuel l.length l

/-- Python `str.splitlines`, accumulator form: a terminator ends the current
line (which may be empty); a final terminator does not open a new line;
`\r\n` counts as a single terminator. -/
def splitlinesAux : List Char → List Char → List (List Char)
  | [], acc => if acc.isEmpty then [] else [acc.reverse]
  | '\r' :: '\n' :: rest, acc => acc.reverse :: splitlinesAux rest []
  | c :: cs, acc =>
    if isLineBreak c then acc.reverse :: splitlinesAux cs []
    else splitlinesAux cs (c :: acc)

/-- Python `str.splitlines`. -/
def splitlines (l : List Char) : List (List Char) := splitlinesAux l []

/-- Python `"\n".join`. -/
def joinLines : List (List Char) → List Char
  | [] => []
  | [x] => x
  | x :: y :: rest => x ++ '\n' :: joinLines (y :: rest)

/-- The line list built by `clean_blank_lines`: each line stripped, empty
lines discarded. -/
def cleanLines (l : List Char) : List (List Char) :=
  ((splitlines l).map (strip pyWhitespace)).filter (fun x => !x.isEmpty)

/-- `clean_blank_lines` from `src/qwen_llm.py`, on character lists. -/
def cleanL (l : List Char) : List Char := joinLines (cleanLines l)

/-- `remove_think_blocks` from `src/qwen_llm.py`. -/
def remove_think_blocks (s : String) : String := String.mk (removeThinkL s.data)

/-- `clean_blank_lines` from `src/qwen_llm.py`. -/
def clean_blank_lines (s : String) : String := String.mk (cleanL s.data)

/-- The sanitizer: `clean_blank_lines (remove_think_blocks text)`, the first
two steps of `extract_qa_pairs_from_llm_result`. -/
def sanitize (s : String) : String := clean_blank_lines (remove_think_blocks s)

/-- Does the text start with `\n答[:：]`, the boundary ending the lazy
question group? -/
def isABoundary : List Char → Bool
  | c₀ :: c₁ :: c₂ :: _ => c₀ = '\n' && (c₁ = amark && isColon c₂)
  | _ => false

/-- Does the text start with `\n问[:：]`, the lookahead ending the lazy
answer group? -/
def isQBoundary : List Char → Bool
  | c₀ :: c₁ :: c₂ :: _ => c₀ = '\n' && (c₁ = qmark && isColon c₂)
  | _ => false

/-- The `$` anchor of the regex (no `re.MULTILINE`): end of text, or just
before one final trailing newline. -/
def isDollar : List Char → Bool
  | [] => true
  | [c] => c = '\n'
  | _ => false

/-- The lazy question group: the shortest prefix followed by `\n答[:：]`.
Returns the group and the text after the three boundary characters, or
`none` when no such boundary exists (the regex match attempt fails). -/
def splitQuestion : List Char → Option (List Char × List Char)
  | [] => none
  | c :: cs =>
    if isABoundary (c :: cs) then some ([], (c :: cs).drop 3)
    else
      match splitQuestion cs with
      | some (q, r) => some (c :: q, r)
      | none => none

/-- The lazy answer group: the shortest prefix whose right context satisfies
the lookahead `\n问[:：]` or the `$` anchor.  Always succeeds (`$` holds at
the end of any text); returns the group and the unconsumed right context. -/
def splitAnswer : List Char → List Char × List Char
  | [] => ([], [])
  | c :: cs =>
    if isQBoundary (c :: cs) || isDollar (c :: cs) then ([], c :: cs)
    else
      let p := splitAnswer cs
      (c :: p.1, p.2)

/-- One attempt of the multi-pair regex at the current position: `问` plus
one colon, then the lazy question group, then the lazy answer group.
Returns the two raw captures and the text where scanning resumes. -/
def matchAt : List Char → Option (List Char × List Char × List Char)
  | c₁ :: c₂ :: cs =>
    if c₁ = qmark && isColon c₂ then
      match splitQuestion cs with
      | some (q, r₁) =>
        let p := splitAnswer r₁
        some (q, p.1, p.2)
      | none => none
    else none
  | _ => none

/-- Fuelled `re.findall` scan: try a match at each position; on success emit
the two captures and resume at the match end, otherwise advance one
character. -/
def scanQAFuel : Nat → List Char → List (List Char × List Char)
  | 0, _ => []
  | _ + 1, [] => []
  | fuel + 1, c :: cs =>
    match matchAt (c :: cs) with
    | some (q, a, r) => (q, a) :: scanQAFuel fuel r
    | none => scanQAFuel fuel cs

/-- `re.findall` of the multi-pair pattern over the whole text. -/
def scanQA (l : List Char) : List (List Char × List Char) := scanQAFuel l.length l

/-- The per-match postprocessing of `extract_qa_pairs_from_llm_result`:
strip both captures, keep the pair only when both are non-empty. -/
def mkQAPair (qa : List Char × List Char) : Option QAPair :=
  let q := strip pyWhitespace qa.1
  let a := strip pyWhitespace qa.2
  if q.isEmpty || a.isEmpty then none else some ⟨String.mk q, String.mk a⟩

/-- The multi-pair segmenter applied to already sanitized text: the regex
scan plus per-match stripping and the non-empty filter. -/
def segmentPairs (s : String) : List QAPair :=
  (scanQA s.data).filterMap mkQAPair

/-- `extract_qa_pairs_from_llm_result` from `src/qwen_llm.py`: remove
`<think>` blocks, clean blank lines, then run the multi-pair regex and keep
every match with non-empty stripped captures, in document order. -/
def extract_qa_pairs_from_llm_result (s : String) : List QAPair :=
  segmentPairs (sanitize s)

/-- Python `str.find` restricted to a single character: index of the first
occurrence, `none` for Python's `-1`. -/
def firstIdx (c : Char) : List Char → Option Nat
  | [] => none
  | x :: xs => if x = c then some 0 else (firstIdx c xs).map (· + 1)

/-- `split_text_to_qa_pairs` from `src/qwen_llm.py`: the single-pair
extractor.  Uses the first `问` and the first `答`; rejects when either is
absent or the first `答` is not strictly after the first `问`; the question
is the text strictly between them and the answer all text after the `答`,
both stripped with `'：:，,。 　\n'`; rejects when either stripped span is
empty. -/
def split_text_to_qa_pairs (s : String) : List QAPair :=
  let t := s.data
  match firstIdx qmark t, firstIdx amark t with
  | some qPos, some aPos =>
    if aPos ≤ qPos then []
    else
      let question := strip isTrimChar ((t.drop (qPos + 1)).take (aPos - (qPos + 1)))
      let answer := strip isTrimChar (t.drop (aPos + 1))
      if question.isEmpty || answer.isEmpty then []
      else [⟨String.mk question, String.mk answer⟩]
  | _, _ => []

/-- Modelled from the spec: the Streaming Accumulator.  The accumulation
itself is performed by `st.write_stream` inside `qa_split_tab`
(`src/app.py`), an external library call not in the repository; the spec
states it "consumes an ordered, exhaustive sequence of GenerationChunk;
concatenation order is the delivery order (no reordering, no dropped
chunks)".  Embedded as a left fold appending each chunk to the state. -/
def accumulateChunks (chunks : List String) : String :=
  chunks.foldl (fun acc c => acc ++ c) ""

/-- `qa_split_tab`'s extraction path (`src/app.py`): accumulate the streamed
chunks, then parse the complete response with
`extract_qa_pairs_from_llm_result`. -/
def qa_split_on_stream (chunks : List String) : List QAPair :=
  extract_qa_pairs_from_llm_result (accumulateChunks chunks)

/-- The single-pair extractor's rejection condition, stated as the spec
words it: the input contains no question marker, or no answer marker, or
the first answer marker is not strictly after the first question marker, or
one of the two trimmed spans is empty. -/
def singleRejects (t : String) : Prop :=
  qmark ∉ t.data ∨ amark ∉ t.data ∨
  (∃ i j, firstIdx qmark t.data = some i ∧ firstIdx amark t.data = some j ∧ j ≤ i) ∨
  (∃ i j, firstIdx qmark t.data = some i ∧ firstIdx amark t.data = some j ∧
    (strip isTrimChar ((t.data.drop (i + 1)).take (j - (i + 1))) = [] ∨
     strip isTrimChar (t.data.drop (j + 1)) = []))

/-! ### Basic lemmas about the embedded primitives -/

theorem String_mk_ne_empty {l : List Char} (h : l ≠ []) : String.mk l ≠ "" :=
  fun he => h (congrArg String.data he)

theorem firstIdx_eq_none_iff (c : Char) (l : List Char) : firstIdx c l = none ↔ c ∉ l := by
  induction l with
  | nil => simp [firstIdx]
  | cons x xs ih =>
    by_cases hx : x = c
    · subst hx; simp [firstIdx]
    · simp only [firstIdx, if_neg hx, Option.map_eq_none', ih, List.mem_cons]
      constructor
      · rintro hn (rfl | hm)
        · exact hx rfl
        · exact hn hm
      · intro hn hm; exact hn (Or.inr hm)

theorem firstIdx_not_mem_take (c : Char) :
    ∀ (l : List Char) (n : Nat), firstIdx c l = some n → ∀ x ∈ l.take n, x ≠ c := by
  intro l
  induction l with
  | nil => intro n h; simp [firstIdx] at h
  | cons y ys ih =>
    intro n h x hx
    by_cases hy : y = c
    · subst hy
      simp [firstIdx] at h
      subst h
      simp at hx
    · simp only [firstIdx, if_neg hy, Option.map_eq_some'] at h
      obtain ⟨m, hm, rfl⟩ := h
      rcases List.mem_cons.mp (by simpa using hx) with rfl | hx'
      · exact fun hc => hy hc
      · exact ih m hm x hx'

theorem split_text_eval (t : String) (i j : Nat)
    (h1 : firstIdx qmark t.data = some i) (h2 : firstIdx amark t.data = some j)
    (hij : ¬ j ≤ i) :
    split_text_to_qa_pairs t =
      if (strip isTrimChar ((t.data.drop (i + 1)).take (j - (i + 1)))).isEmpty ||
         (strip isTrimChar (t.data.drop (j + 1))).isEmpty then []
      else [⟨String.mk (strip isTrimChar ((t.data.drop (i + 1)).take (j - (i + 1)))),
            String.mk (strip isTrimChar (t.data.drop (j + 1)))⟩] := by
  unfold split_text_to_qa_pairs
  dsimp only
  rw [h1, h2]
  dsimp only
  rw [if_neg hij]

/-! ### C1: the multi-pair segmenter requires a colon after the marker -/

/-- C1, counterexample: on `"问A\n答B\n问C\n答D"` (markers without colons)
the multi-pair segmenter returns zero pairs, not the two pairs the claim
states. -/
theorem c1_counterexample :
    extract_qa_pairs_from_llm_result "问A\n答B\n问C\n答D" = [] ∧
    ([] : List QAPair) ≠ [⟨"A", "B"⟩, ⟨"C", "D"⟩] := by decide

/-- C1, amended: the multi-pair segmenter's question marker must be followed
by a half- or full-width colon.  With bare markers,
`"问A\n答B\n问C\n答D"` yields zero pairs; with colons,
`"问:A\n答:B\n问:C\n答:D"` yields exactly the two pairs
`{A,B}` then `{C,D}` in document order. -/
theorem c1_colon_required :
    extract_qa_pairs_from_llm_result "问A\n答B\n问C\n答D" = [] ∧
    extract_qa_pairs_from_llm_result "问:A\n答:B\n问:C\n答:D" =
      [⟨"A", "B"⟩, ⟨"C", "D"⟩] := by decide

/-! ### C2 (counterexample part): the sanitizer is not idempotent -/

/-- C2, counterexample: one `re.sub` pass over
`"<thi<think>z</think>nk>x</think>"` deletes the inner block and thereby
splices together a brand-new `<think>x</think>` block, which only the second
pass removes; so `sanitize (sanitize t) ≠ sanitize t` for this input. -/
theorem c2_counterexample :
    sanitize (sanitize "<thi<think>z</think>nk>x</think>") ≠
      sanitize "<thi<think>z</think>nk>x</think>" := by decide

/-! ### C3: a mid-line question marker does not split the answer, but the
markers need colons -/

/-- C3, counterexample: the claimed input `"问A\n答B内含问字继续"` has no
colons after its markers, so the segmenter returns zero pairs, not one. -/
theorem c3_counterexample :
    extract_qa_pairs_from_llm_result "问A\n答B内含问字继续" = [] ∧
    ([] : List QAPair) ≠ [⟨"A", "B内含问字继续"⟩] := by decide

/-- C3, amended: with the colons the code requires, a question-marker
character occurring mid-line inside the answer body does not terminate the
answer span: `"问:A\n答:B内含问字继续"` yields exactly one pair whose
answer `"B内含问字继续"` contains the embedded question marker unsplit. -/
theorem c3_midline_marker :
    extract_qa_pairs_from_llm_result "问A\n答B内含问字继续" = [] ∧
    extract_qa_pairs_from_llm_result "问:A\n答:B内含问字继续" =
      [⟨"A", "B内含问字继续"⟩] ∧
    qmark ∈ ("B内含问字继续" : String).data := by decide

/-! ### C4: the single-pair extractor -/

/-- C4: `split_text_to_qa_pairs "问A答B"` is `[{A, B}]` and
`split_text_to_qa_pairs "问A答B问C"` is `[{A, B问C}]`; in general, when the
first `问` is at `i`, the first `答` at `j` with `i < j`, and both trimmed
spans are non-empty, the extractor returns exactly one pair whose question is
the text strictly between the markers and whose answer is all text strictly
after the answer marker, both trimmed on both ends with the set
`{：, :, ，, ,, 。, space, full-width space, newline}` (`isTrimChar`). -/
theorem c4_single_extractor :
    split_text_to_qa_pairs "问A答B" = [⟨"A", "B"⟩] ∧
    split_text_to_qa_pairs "问A答B问C" = [⟨"A", "B问C"⟩] ∧
    ∀ (s : String) (i j : Nat),
      firstIdx qmark s.data = some i → firstIdx amark s.data = some j → i < j →
      strip isTrimChar ((s.data.drop (i + 1)).take (j - (i + 1))) ≠ [] →
      strip isTrimChar (s.data.drop (j + 1)) ≠ [] →
      split_text_to_qa_pairs s =
        [⟨String.mk (strip isTrimChar ((s.data.drop (i + 1)).take (j - (i + 1)))),
          String.mk (strip isTrimChar (s.data.drop (j + 1)))⟩] := by
  refine ⟨by decide, by decide, ?_⟩
  intro s i j h1 h2 hij hq ha
  rw [split_text_eval s i j h1 h2 (by omega)]
  rw [if_neg (by simp [List.isEmpty_iff, hq, ha])]

/-- C4, witness: the general characterization applied at `"问:你好答:好"`
(question marker at 0, answer marker at 4). -/
theorem c4_witness : split_text_to_qa_pairs "问:你好答:好" = [⟨"你好", "好"⟩] := by
  rw [c4_single_extractor.2.2 "问:你好答:好" 0 4 (by decide) (by decide) (by decide)
    (by decide) (by decide)]
  decide

/-! ### C5: the single-pair extractor's rejection condition -/

/-- C5: the single-pair extractor returns zero pairs exactly when the input
has no question marker, or no answer marker, or the first answer marker is
not strictly after the first question marker, or either trimmed span is
empty; in every other case it returns exactly one pair. -/
theorem c5_reject_characterization (t : String) :
    (split_text_to_qa_pairs t = [] ↔ singleRejects t) ∧
    (¬ singleRejects t → ∃ p, split_text_to_qa_pairs t = [p]) := by
  have main : split_text_to_qa_pairs t = [] ↔ singleRejects t := by
    constructor
    · intro h
      rcases h1 : firstIdx qmark t.data with _ | i
      · exact Or.inl ((firstIdx_eq_none_iff _ _).mp h1)
      rcases h2 : firstIdx amark t.data with _ | j
      · exact Or.inr (Or.inl ((firstIdx_eq_none_iff _ _).mp h2))
      by_cases hij : j ≤ i
      · exact Or.inr (Or.inr (Or.inl ⟨i, j, h1, h2, hij⟩))
      rw [split_text_eval t i j h1 h2 hij] at h
      by_cases hcond :
          ((strip isTrimChar ((t.data.drop (i + 1)).take (j - (i + 1)))).isEmpty ||
           (strip isTrimChar (t.data.drop (j + 1))).isEmpty) = true
      · refine Or.inr (Or.inr (Or.inr ⟨i, j, h1, h2, ?_⟩))
        simpa [List.isEmpty_iff] using hcond
      · rw [if_neg hcond] at h
        simp at h
    · rintro (hn | hn | ⟨i, j, h1, h2, hij⟩ | ⟨i, j, h1, h2, hempty⟩)
      · rcases h2 : firstIdx amark t.data with _ | j <;>
          (unfold split_text_to_qa_pairs; dsimp only;
           rw [(firstIdx_eq_none_iff _ _).mpr hn, h2])
      · rcases h1 : firstIdx qmark t.data with _ | i <;>
          (unfold split_text_to_qa_pairs; dsimp only;
           rw [(firstIdx_eq_none_iff _ _).mpr hn, h1])
      · unfold split_text_to_qa_pairs
        dsimp only
        rw [h1, h2]
        dsimp only
        rw [if_pos hij]
      · by_cases hij : j ≤ i
        · unfold split_text_to_qa_pairs
          dsimp only
          rw [h1, h2]
          dsimp only
          rw [if_pos hij]
        · rw [split_text_eval t i j h1 h2 hij]
          rw [if_pos (by simp [List.isEmpty_iff]; tauto)]
  refine ⟨main, fun hn => ?_⟩
  rcases h1 : firstIdx qmark t.data with _ | i
  · exact absurd (Or.inl ((firstIdx_eq_none_iff _ _).mp h1)) hn
  rcases h2 : firstIdx amark t.data with _ | j
  · exact absurd (Or.inr (Or.inl ((firstIdx_eq_none_iff _ _).mp h2))) hn
  by_cases hij : j ≤ i
  · exact absurd (Or.inr (Or.inr (Or.inl ⟨i, j, h1, h2, hij⟩))) hn
  rw [split_text_eval t i j h1 h2 hij]
  by_cases hcond :
      ((strip isTrimChar ((t.data.drop (i + 1)).take (j - (i + 1)))).isEmpty ||
       (strip isTrimChar (t.data.drop (j + 1))).isEmpty) = true
  · exact absurd (Or.inr (Or.inr (Or.inr ⟨i, j, h1, h2, by simpa [List.isEmpty_iff] using hcond⟩))) hn
  · rw [if_neg hcond]
    exact ⟨_, rfl⟩

/-- C5, witness: the characterization applied at `"x"`, which contains no
question marker, so the extractor returns zero pairs. -/
theorem c5_witness : split_text_to_qa_pairs "x" = [] :=
  (c5_reject_characterization "x").1.mpr (Or.inl (by decide))

/-! ### C8: the streaming accumulator refines sanitize-then-segment -/

/-- C8: accumulating an ordered chunk sequence that completes normally and
then extracting pairs equals applying the sanitizer followed by the
multi-pair segmenter to the plain concatenation of the chunks; in
particular, feeding `["问A\n", "答B"]` then end-of-stream equals segmenting
`"问A\n答B"`. -/
theorem c8_stream_refinement :
    (∀ chunks : List String,
      qa_split_on_stream chunks = segmentPairs (sanitize (String.join chunks))) ∧
    qa_split_on_stream ["问A\n", "答B"] =
      extract_qa_pairs_from_llm_result ("问A\n" ++ "答B") := by
  exact ⟨fun chunks => rfl, rfl⟩

/-! ### Strip and dropWhile lemmas -/

theorem dropWhile_head_false {p : Char → Bool} :
    ∀ {l : List Char} {c : Char} {cs : List Char},
      l.dropWhile p = c :: cs → p c = false := by
  intro l
  induction l with
  | nil => intro c cs h; simp at h
  | cons x xs ih =>
    intro c cs h
    by_cases hx : p x = true
    · rw [List.dropWhile_cons_of_pos hx] at h; exact ih h
    · rw [List.dropWhile_cons_of_neg hx] at h
      cases h
      simpa using hx

theorem dropWhile_idem (p : Char → Bool) (l : List Char) :
    (l.dropWhile p).dropWhile p = l.dropWhile p := by
  cases h : l.dropWhile p with
  | nil => simp
  | cons c cs => rw [List.dropWhile_cons_of_neg (by simp [dropWhile_head_false h])]

theorem strip_within (p : Char → Bool) (l : List Char) : strip p l <:+: l := by
  unfold strip
  have h1 : l.dropWhile p <:+ l := List.dropWhile_suffix p
  obtain ⟨u, hu⟩ : (l.dropWhile p).reverse.dropWhile p <:+ (l.dropWhile p).reverse :=
    List.dropWhile_suffix p
  have h3 : ((l.dropWhile p).reverse.dropWhile p).reverse <+: l.dropWhile p := by
    refine ⟨u.reverse, ?_⟩
    rw [← List.reverse_append, hu, List.reverse_reverse]
  exact h3.isInfix.trans h1.isInfix

theorem strip_idem (p : Char → Bool) (l : List Char) :
    strip p (strip p l) = strip p l := by
  obtain ⟨u, hu⟩ : (l.dropWhile p).reverse.dropWhile p <:+ (l.dropWhile p).reverse :=
    List.dropWhile_suffix p
  have hyd : ((l.dropWhile p).reverse.dropWhile p).reverse ++ u.reverse = l.dropWhile p := by
    rw [← List.reverse_append, hu, List.reverse_reverse]
  have hstep : (((l.dropWhile p).reverse.dropWhile p).reverse).dropWhile p =
      ((l.dropWhile p).reverse.dropWhile p).reverse := by
    cases hdr : ((l.dropWhile p).reverse.dropWhile p).reverse with
    | nil => simp
    | cons c cs =>
      have hyc : l.dropWhile p = c :: (cs ++ u.reverse) := by
        rw [← hyd, hdr]; simp
      exact List.dropWhile_cons_of_neg (by simp [dropWhile_head_false hyc])
  show ((((strip p l).dropWhile p).reverse).dropWhile p).reverse = strip p l
  show (((((l.dropWhile p).reverse.dropWhile p).reverse).dropWhile p).reverse.dropWhile p).reverse
      = strip p l
  rw [hstep, List.reverse_reverse, dropWhile_idem]
  rfl

theorem strip_subset (p : Char → Bool) (l : List Char) : strip p l ⊆ l :=
  (strip_within p l).subset

/-! ### Structure of the lazy regex groups -/

theorem isABoundary_iff (l : List Char) :
    isABoundary l = true ↔ ∃ c rest, isColon c = true ∧ l = '\n' :: amark :: c :: rest := by
  match l with
  | [] => simp [isABoundary]
  | [c₀] => simp [isABoundary]
  | [c₀, c₁] => simp [isABoundary]
  | c₀ :: c₁ :: c₂ :: l3 =>
    simp only [isABoundary, Bool.and_eq_true, decide_eq_true_eq]
    constructor
    · rintro ⟨h0, h1, h2⟩
      exact ⟨c₂, l3, h2, by rw [h0, h1]⟩
    · rintro ⟨c, rest, hc, heq⟩
      obtain ⟨rfl, rfl, rfl, rfl⟩ : c₀ = '\n' ∧ c₁ = amark ∧ c₂ = c ∧ l3 = rest := by
        simpa using heq
      exact ⟨rfl, rfl, hc⟩

theorem isQBoundary_intro (c : Char) (rest : List Char) (hc : isColon c = true) :
    isQBoundary ('\n' :: qmark :: c :: rest) = true := by
  simp [isQBoundary, hc]

theorem splitQuestion_parts :
    ∀ l q r, splitQuestion l = some (q, r) →
      ∃ c, isColon c = true ∧ l = q ++ '\n' :: amark :: c :: r := by
  intro l
  induction l with
  | nil => intro q r h; simp [splitQuestion] at h
  | cons x xs ih =>
    intro q r h
    by_cases hb : isABoundary (x :: xs) = true
    · rw [splitQuestion, if_pos hb] at h
      obtain ⟨c, rest, hc, heq⟩ := (isABoundary_iff _).mp hb
      obtain ⟨rfl, rfl⟩ : [] = q ∧ (x :: xs).drop 3 = r := by simpa using h
      exact ⟨c, hc, by simp [heq]⟩
    · rw [splitQuestion, if_neg hb] at h
      cases hrec : splitQuestion xs with
      | none => rw [hrec] at h; simp at h
      | some pr =>
        obtain ⟨q', r'⟩ := pr
        rw [hrec] at h
        obtain ⟨rfl, rfl⟩ : x :: q' = q ∧ r' = r := by simpa using h
        obtain ⟨c, hc, heq⟩ := ih q' r' hrec
        exact ⟨c, hc, by rw [heq]; rfl⟩

theorem splitQuestion_no_boundary :
    ∀ l q r, splitQuestion l = some (q, r) →
      ∀ c, isColon c = true → ¬ (('\n' :: amark :: [c]) <:+: q) := by
  intro l
  induction l with
  | nil => intro q r h; simp [splitQuestion] at h
  | cons x xs ih =>
    intro q r h c hc hinf
    by_cases hb : isABoundary (x :: xs) = true
    · rw [splitQuestion, if_pos hb] at h
      obtain ⟨rfl, rfl⟩ : [] = q ∧ (x :: xs).drop 3 = r := by simpa using h
      simp [List.infix_nil] at hinf
    · rw [splitQuestion, if_neg hb] at h
      cases hrec : splitQuestion xs with
      | none => rw [hrec] at h; simp at h
      | some pr =>
        obtain ⟨q', r'⟩ := pr
        rw [hrec] at h
        obtain ⟨rfl, rfl⟩ : x :: q' = q ∧ r' = r := by simpa using h
        rcases List.infix_cons_iff.mp hinf with hpre | hinf'
        · rcases List.cons_prefix_cons.mp hpre with ⟨hx, hpre2⟩
          obtain ⟨t, ht⟩ := hpre2
          obtain ⟨c', hc', hxs⟩ := splitQuestion_parts xs q' r' hrec
          apply hb
          have hsh : x :: xs = '\n' :: amark :: c :: (t ++ '\n' :: amark :: c' :: r') := by
            rw [← hx, hxs, ← ht]; rfl
          rw [hsh]
          rw [isABoundary_iff]
          exact ⟨c, _, hc, rfl⟩
        · exact ih q' r' hrec c hc hinf'

theorem splitAnswer_eq_append : ∀ l : List Char, (splitAnswer l).1 ++ (splitAnswer l).2 = l := by
  intro l
  induction l with
  | nil => rfl
  | cons x xs ih =>
    by_cases hg : (isQBoundary (x :: xs) || isDollar (x :: xs)) = true
    · rw [splitAnswer, if_pos hg]; rfl
    · rw [splitAnswer, if_neg hg]
      simpa using ih

theorem splitAnswer_no_boundary :
    ∀ (l : List Char) (c : Char), isColon c = true →
      ¬ (('\n' :: qmark :: [c]) <:+: (splitAnswer l).1) := by
  intro l
  induction l with
  | nil => intro c hc hinf; simp [splitAnswer, List.infix_nil] at hinf
  | cons x xs ih =>
    intro c hc hinf
    by_cases hg : (isQBoundary (x :: xs) || isDollar (x :: xs)) = true
    · rw [splitAnswer, if_pos hg] at hinf
      simp [List.infix_nil] at hinf
    · rw [splitAnswer, if_neg hg] at hinf
      rcases List.infix_cons_iff.mp (by simpa using hinf) with hpre | hinf'
      · rcases List.cons_prefix_cons.mp hpre with ⟨hx, hpre2⟩
        have hfst : (splitAnswer xs).1 <+: xs := ⟨(splitAnswer xs).2, splitAnswer_eq_append xs⟩
        obtain ⟨t, ht⟩ := hpre2.trans hfst
        apply hg
        have hsh : x :: xs = '\n' :: qmark :: c :: t := by rw [← hx, ← ht]; rfl
        rw [hsh, isQBoundary_intro c t hc, Bool.true_or]
      · exact ih c hc hinf'

theorem matchAt_inv {l q a r} (h : matchAt l = some (q, a, r)) :
    ∃ cs r₁, splitQuestion cs = some (q, r₁) ∧ (splitAnswer r₁).1 = a := by
  match l with
  | [] => simp [matchAt] at h
  | [c] => simp [matchAt] at h
  | c₁ :: c₂ :: cs =>
    by_cases hg : (c₁ = qmark && isColon c₂) = true
    · rw [matchAt, if_pos hg] at h
      cases hq : splitQuestion cs with
      | none => rw [hq] at h; simp at h
      | some pr =>
        obtain ⟨q', r₁⟩ := pr
        rw [hq] at h
        obtain ⟨rfl, hsp⟩ : q' = q ∧ splitAnswer r₁ = (a, r) := by simpa using h
        exact ⟨cs, r₁, hq, by rw [hsp]⟩
    · rw [matchAt, if_neg hg] at h
      simp at h

theorem scanQAFuel_mem :
    ∀ (fuel : Nat) (l : List Char) (q a : List Char), (q, a) ∈ scanQAFuel fuel l →
      ∃ cs r₁, splitQuestion cs = some (q, r₁) ∧ (splitAnswer r₁).1 = a := by
  intro fuel
  induction fuel with
  | zero => intro l q a h; simp [scanQAFuel] at h
  | succ n ih =>
    intro l q a h
    match l with
    | [] => simp [scanQAFuel] at h
    | x :: xs =>
      rw [scanQAFuel] at h
      cases hm : matchAt (x :: xs) with
      | none => rw [hm] at h; exact ih xs q a h
      | some tr =>
        obtain ⟨q', a', r⟩ := tr
        rw [hm] at h
        rcases List.mem_cons.mp h with heq | hmem
        · obtain ⟨rfl, rfl⟩ : q = q' ∧ a = a' := by simpa using heq
          exact matchAt_inv hm
        · exact ih r q a hmem

theorem mkQAPair_inv {qa : List Char × List Char} {p : QAPair} (h : mkQAPair qa = some p) :
    p.question.data = strip pyWhitespace qa.1 ∧ p.answer.data = strip pyWhitespace qa.2 ∧
    strip pyWhitespace qa.1 ≠ [] ∧ strip pyWhitespace qa.2 ≠ [] := by
  unfold mkQAPair at h
  dsimp only at h
  by_cases hc : ((strip pyWhitespace qa.1).isEmpty || (strip pyWhitespace qa.2).isEmpty) = true
  · rw [if_pos hc] at h; simp at h
  · rw [if_neg hc] at h
    obtain rfl : QAPair.mk (String.mk (strip pyWhitespace qa.1))
        (String.mk (strip pyWhitespace qa.2)) = p := by simpa using h
    have hne : ¬ strip pyWhitespace qa.1 = [] ∧ ¬ strip pyWhitespace qa.2 = [] := by
      simpa [List.isEmpty_iff, not_or] using hc
    exact ⟨rfl, rfl, hne.1, hne.2⟩

theorem extract_mem {s : String} {p : QAPair}
    (h : p ∈ extract_qa_pairs_from_llm_result s) :
    ∃ q a, (∃ cs r₁, splitQuestion cs = some (q, r₁) ∧ (splitAnswer r₁).1 = a) ∧
      p.question.data = strip pyWhitespace q ∧ p.answer.data = strip pyWhitespace a ∧
      strip pyWhitespace q ≠ [] ∧ strip pyWhitespace a ≠ [] := by
  unfold extract_qa_pairs_from_llm_result segmentPairs at h
  obtain ⟨⟨q, a⟩, hmem, hmk⟩ := List.mem_filterMap.mp h
  obtain ⟨e1, e2, e3, e4⟩ := mkQAPair_inv hmk
  exact ⟨q, a, scanQAFuel_mem _ _ q a hmem, e1, e2, e3, e4⟩

theorem split_mem_inv {t : String} {p : QAPair} (hp : p ∈ split_text_to_qa_pairs t) :
    ∃ i j, firstIdx qmark t.data = some i ∧ firstIdx amark t.data = some j ∧ ¬ j ≤ i ∧
      p.question.data = strip isTrimChar ((t.data.drop (i + 1)).take (j - (i + 1))) ∧
      p.answer.data = strip isTrimChar (t.data.drop (j + 1)) ∧
      p.question.data ≠ [] ∧ p.answer.data ≠ [] := by
  rcases h1 : firstIdx qmark t.data with _ | i
  · rcases h2 : firstIdx amark t.data with _ | j <;>
      (unfold split_text_to_qa_pairs at hp; dsimp only at hp; rw [h1, h2] at hp; simp at hp)
  rcases h2 : firstIdx amark t.data with _ | j
  · unfold split_text_to_qa_pairs at hp; dsimp only at hp; rw [h1, h2] at hp; simp at hp
  by_cases hij : j ≤ i
  · unfold split_text_to_qa_pairs at hp
    dsimp only at hp
    rw [h1, h2] at hp
    dsimp only at hp
    rw [if_pos hij] at hp
    simp at hp
  · rw [split_text_eval t i j h1 h2 hij] at hp
    by_cases hcond :
        ((strip isTrimChar ((t.data.drop (i + 1)).take (j - (i + 1)))).isEmpty ||
         (strip isTrimChar (t.data.drop (j + 1))).isEmpty) = true
    · rw [if_pos hcond] at hp; simp at hp
    · rw [if_neg hcond] at hp
      obtain rfl : p = QAPair.mk
          (String.mk (strip isTrimChar ((t.data.drop (i + 1)).take (j - (i + 1)))))
          (String.mk (strip isTrimChar (t.data.drop (j + 1)))) := by simpa using hp
      have hne : ¬ strip isTrimChar ((t.data.drop (i + 1)).take (j - (i + 1))) = [] ∧
          ¬ strip isTrimChar (t.data.drop (j + 1)) = [] := by
        simpa [List.isEmpty_iff, not_or] using hcond
      exact ⟨i, j, rfl, rfl, hij, rfl, rfl, hne.1, hne.2⟩

/-! ### C10: answers never contain a line-start question opener -/

/-- C10: for every input, no answer stored in any pair returned by the
multi-pair segmenter contains a newline immediately followed by the
question marker and a half- or full-width colon (the lazy answer group is
the shortest span bounded by the lookahead `\n问[:：]` or end of text, and
trimming only removes characters at the two ends). -/
theorem c10_answer_boundary (s : String) (p : QAPair)
    (hp : p ∈ extract_qa_pairs_from_llm_result s) (c : Char) (hc : isColon c = true) :
    ¬ (('\n' :: qmark :: [c]) <:+: p.answer.data) := by
  obtain ⟨q, a, ⟨cs, r₁, h1, h2⟩, _, e2, _, _⟩ := extract_mem hp
  rw [e2]
  intro hinf
  exact splitAnswer_no_boundary r₁ c hc (h2 ▸ hinf.trans (strip_within pyWhitespace a))

/-- C10, witness: the boundary invariant applied to the pair extracted from
`"问:A\n答:B"`. -/
theorem c10_witness : ¬ (('\n' :: qmark :: [':']) <:+: ("B" : String).data) :=
  c10_answer_boundary "问:A\n答:B" ⟨"A", "B"⟩ (by decide) ':' (by decide)

/-! ### C6: question spans and newlines -/

/-- C6, counterexample: on `"问:甲\n乙\n答:丙"` the single matched unit has
question `"甲\n乙"`, which contains a newline character, refuting the claim
that a question span never extends past the first newline. -/
theorem c6_counterexample :
    extract_qa_pairs_from_llm_result "问:甲\n乙\n答:丙" = [⟨"甲\n乙", "丙"⟩] ∧
    '\n' ∈ ("甲\n乙" : String).data := by decide

/-- C6, amended: the question span of a matched unit extends up to the first
newline that is immediately followed by the answer marker and a colon (the
`\n答[:：]` boundary), not up to the first newline; questions may therefore
contain newline characters, but no returned question ever contains a newline
immediately followed by the answer marker and a half- or full-width colon. -/
theorem c6_question_boundary (s : String) (p : QAPair)
    (hp : p ∈ extract_qa_pairs_from_llm_result s) (c : Char) (hc : isColon c = true) :
    ¬ (('\n' :: amark :: [c]) <:+: p.question.data) := by
  obtain ⟨q, a, ⟨cs, r₁, h1, h2⟩, e1, _, _, _⟩ := extract_mem hp
  rw [e1]
  intro hinf
  exact splitQuestion_no_boundary cs q r₁ h1 c hc (hinf.trans (strip_within pyWhitespace q))

/-- C6, witness: the amended invariant applied to the pair extracted from
`"问:A\n答:B"`. -/
theorem c6_witness : ¬ (('\n' :: amark :: [':']) <:+: ("A" : String).data) :=
  c6_question_boundary "问:A\n答:B" ⟨"A", "B"⟩ (by decide) ':' (by decide)

/-! ### C7: pair invariants of the two extractors -/

/-- C7, counterexample: the multi-pair segmenter on `"问:有答字吗\n答:有"`
returns a pair whose question `"有答字吗"` contains the answer-marker
character `答`, refuting the claim that a question never includes it. -/
theorem c7_counterexample :
    extract_qa_pairs_from_llm_result "问:有答字吗\n答:有" = [⟨"有答字吗", "有"⟩] ∧
    amark ∈ ("有答字吗" : String).data := by decide

/-- C7, amended: every pair produced by either extractor has non-empty
question and answer after trimming; the single-pair extractor's question
never contains the answer-marker character (it stops at the first `答`),
while the multi-pair segmenter's question can contain a bare `答` mid-line
(its boundary is `\n答[:：]`, see the C6 theorem). -/
theorem c7_nonempty_invariant (t : String) :
    (∀ p ∈ split_text_to_qa_pairs t,
       p.question ≠ "" ∧ p.answer ≠ "" ∧ amark ∉ p.question.data) ∧
    (∀ p ∈ extract_qa_pairs_from_llm_result t,
       p.question ≠ "" ∧ p.answer ≠ "") := by
  constructor
  · intro p hp
    obtain ⟨i, j, h1, h2, hij, hqd, had, hqne, hane⟩ := split_mem_inv hp
    refine ⟨fun h => hqne (by rw [h]), fun h => hane (by rw [h]), ?_⟩
    intro hmem
    rw [hqd] at hmem
    have h2' : amark ∈ (t.data.take j).drop (i + 1) := by
      rw [List.drop_take]
      exact strip_subset isTrimChar _ hmem
    exact firstIdx_not_mem_take amark t.data j h2 amark
      (List.mem_of_mem_drop h2') rfl
  · intro p hp
    obtain ⟨q, a, _, e1, e2, e3, e4⟩ := extract_mem hp
    exact ⟨fun h => e3 (by rw [← e1, h]), fun h => e4 (by rw [← e2, h])⟩

/-- C7, witness: the invariants applied to the single pair extracted from
`"问A答B"`. -/
theorem c7_witness :
    ("A" : String) ≠ "" ∧ ("B" : String) ≠ "" ∧ amark ∉ ("A" : String).data :=
  (c7_nonempty_invariant "问A答B").1 ⟨"A", "B"⟩ (by decide)

/-! ### C9: totality and graceful empty results -/

theorem splitlinesAux_nil (acc : List Char) :
    splitlinesAux [] acc = if acc.isEmpty then [] else [acc.reverse] := rfl

theorem splitlinesAux_cons_nb {c : Char} (h1 : isLineBreak c = false) (cs acc : List Char) :
    splitlinesAux (c :: cs) acc = splitlinesAux cs (c :: acc) := by
  have hc : c ≠ '\r' := fun h => by subst h; simp [isLineBreak] at h1
  rw [splitlinesAux.eq_def]
  split
  · rename_i heq
    simp at heq
  · rename_i rest heq
    injection heq with h h2
    exact absurd h hc
  · rename_i c' cs' hno heq
    injection heq with h h2
    subst h
    subst h2
    rw [if_neg (by simp [h1])]

theorem splitlinesAux_cons_br {c : Char} {cs : List Char} (hbr : isLineBreak c = true)
    (hne : ∀ rest, c = '\r' → cs = '\n' :: rest → False) (acc : List Char) :
    splitlinesAux (c :: cs) acc = acc.reverse :: splitlinesAux cs [] := by
  rw [splitlinesAux.eq_def]
  split
  · rename_i heq
    simp at heq
  · rename_i rest heq
    injection heq with h h2
    exact (hne rest h h2).elim
  · rename_i c' cs' hno heq
    injection heq with h h2
    subst h
    subst h2
    rw [if_pos hbr]

theorem splitlinesAux_nl (cs acc : List Char) :
    splitlinesAux ('\n' :: cs) acc = acc.reverse :: splitlinesAux cs [] :=
  splitlinesAux_cons_br (by decide) (fun rest h _ => by simp at h) acc

theorem splitlinesAux_subset :
    ∀ (l acc : List Char) (x : List Char), x ∈ splitlinesAux l acc →
      ∀ c ∈ x, c ∈ acc ∨ c ∈ l := by
  intro l acc
  induction l, acc using splitlinesAux.induct with
  | case1 acc ha =>
    intro x hx c hc
    rw [splitlinesAux_nil, if_pos ha] at hx
    simp at hx
  | case2 acc ha =>
    intro x hx c hc
    rw [splitlinesAux_nil, if_neg ha] at hx
    rcases List.mem_singleton.mp hx with rfl
    exact Or.inl (by simpa using hc)
  | case3 rest acc ih =>
    intro x hx c hc
    rcases List.mem_cons.mp hx with rfl | hx'
    · exact Or.inl (by simpa using hc)
    · rcases ih x hx' c hc with h | h
      · simp at h
      · exact Or.inr (by simp [h])
  | case4 c0 cs acc hne hbr ih =>
    intro x hx c hc
    rw [splitlinesAux_cons_br hbr hne] at hx
    rcases List.mem_cons.mp hx with rfl | hx'
    · exact Or.inl (by simpa using hc)
    · rcases ih x hx' c hc with h | h
      · simp at h
      · exact Or.inr (List.mem_cons_of_mem _ h)
  | case5 c0 cs acc hne hbr ih =>
    intro x hx c hc
    rw [splitlinesAux_cons_nb (by simpa using hbr)] at hx
    rcases ih x hx c hc with h | h
    · rcases List.mem_cons.mp h with rfl | h'
      · exact Or.inr (List.mem_cons_self _ _)
      · exact Or.inl h'
    · exact Or.inr (List.mem_cons_of_mem _ h)

theorem mem_joinLines :
    ∀ (L : List (List Char)) (a : Char), a ∈ joinLines L → a = '\n' ∨ ∃ x ∈ L, a ∈ x := by
  intro L
  induction L with
  | nil => intro a ha; simp [joinLines] at ha
  | cons x L ih =>
    intro a ha
    cases L with
    | nil => exact Or.inr ⟨x, List.mem_singleton_self x, by simpa [joinLines] using ha⟩
    | cons y L' =>
      rw [joinLines] at ha
      rcases List.mem_append.mp ha with h | h
      · exact Or.inr ⟨x, List.mem_cons_self _ _, h⟩
      · rcases List.mem_cons.mp h with rfl | h'
        · exact Or.inl rfl
        · rcases ih a h' with h'' | ⟨z, hz, hz'⟩
          · exact Or.inl h''
          · exact Or.inr ⟨z, List.mem_cons_of_mem _ hz, hz'⟩

theorem findClose_suffix : ∀ {l r : List Char}, findClose l = some r → r <:+ l := by
  intro l
  induction l with
  | nil => intro r h; simp [findClose] at h
  | cons c cs ih =>
    intro r h
    by_cases hp : thinkClose.isPrefixOf (c :: cs) = true
    · rw [findClose, if_pos hp] at h
      obtain rfl : (c :: cs).drop 8 = r := by simpa using h
      exact List.drop_suffix 8 (c :: cs)
    · rw [findClose, if_neg hp] at h
      exact (ih h).trans (List.suffix_cons c cs)

theorem removeThinkFuel_subset : ∀ (fuel : Nat) (l : List Char), removeThinkFuel fuel l ⊆ l := by
  intro fuel
  induction fuel with
  | zero => intro l; exact fun _ h => h
  | succ n ih =>
    intro l
    cases l with
    | nil => exact fun _ h => h
    | cons c cs =>
      by_cases hp : thinkOpen.isPrefixOf (c :: cs) = true
      · rw [removeThinkFuel, if_pos hp]
        cases hf : findClose ((c :: cs).drop 7) with
        | none => exact fun _ h => h
        | some rest =>
          intro a ha
          have h1 : a ∈ rest := ih rest ha
          have h2 : rest <:+ (c :: cs).drop 7 := findClose_suffix hf
          exact (h2.subset.trans (List.drop_subset _ _)) h1
      · rw [removeThinkFuel, if_neg hp]
        intro a ha
        rcases List.mem_cons.mp ha with rfl | h'
        · exact List.mem_cons_self _ _
        · exact List.mem_cons_of_mem _ (ih cs h')

theorem cleanL_subset (l : List Char) (a : Char) (ha : a ∈ cleanL l) : a = '\n' ∨ a ∈ l := by
  rcases mem_joinLines _ a ha with h | ⟨x, hx, hax⟩
  · exact Or.inl h
  · have hx' : x ∈ (splitlines l).map (strip pyWhitespace) := (List.mem_filter.mp hx).1
    obtain ⟨line, hline, rfl⟩ := List.mem_map.mp hx'
    have h1 : a ∈ line := strip_subset pyWhitespace line hax
    rcases splitlinesAux_subset l [] line hline a h1 with h | h
    · simp at h
    · exact Or.inr h

theorem matchAt_none_of_no_qmark {l : List Char} (h : qmark ∉ l) : matchAt l = none := by
  match l with
  | [] => rfl
  | [c] => rfl
  | c₁ :: c₂ :: cs =>
    rw [matchAt, if_neg]
    simp only [Bool.and_eq_true, decide_eq_true_eq, not_and]
    intro hc
    exact absurd (hc ▸ List.mem_cons_self c₁ (c₂ :: cs)) h

theorem scanQAFuel_nil_of_no_qmark :
    ∀ (fuel : Nat) (l : List Char), qmark ∉ l → scanQAFuel fuel l = [] := by
  intro fuel
  induction fuel with
  | zero => intro l _; rfl
  | succ n ih =>
    intro l hl
    cases l with
    | nil => rfl
    | cons c cs =>
      rw [scanQAFuel, matchAt_none_of_no_qmark hl]
      exact ih cs (fun h => hl (List.mem_cons_of_mem _ h))

/-- C9: the sanitizer and the multi-pair segmenter are total functions by
construction (every Python operation used -- `re.sub`, `splitlines`,
`strip`, `find`, slicing, `re.findall` -- is total on strings, so the
embedding needed no error monad), and unparseable input yields the empty
pair list rather than a failure: any input without the question marker
extracts to zero pairs. -/
theorem c9_no_marker_empty (s : String) (h : qmark ∉ s.data) :
    extract_qa_pairs_from_llm_result s = [] := by
  have h1 : qmark ∉ removeThinkL s.data := fun hm => h (removeThinkFuel_subset _ _ hm)
  have h2 : qmark ∉ cleanL (removeThinkL s.data) := by
    intro hm
    rcases cleanL_subset _ _ hm with hq | hq
    · exact absurd hq (by decide)
    · exact h1 hq
  unfold extract_qa_pairs_from_llm_result segmentPairs
  rw [show (sanitize s).data = cleanL (removeThinkL s.data) from rfl]
  rw [show scanQA (cleanL (removeThinkL s.data)) =
        scanQAFuel (cleanL (removeThinkL s.data)).length (cleanL (removeThinkL s.data)) from rfl]
  rw [scanQAFuel_nil_of_no_qmark _ _ h2]
  rfl

/-- C9, witness: the graceful-empty theorem applied at `"hello"`. -/
theorem c9_witness : extract_qa_pairs_from_llm_result "hello" = [] :=
  c9_no_marker_empty "hello" (by decide)

/-! ### C2 (amended part): idempotence on think-tag-free input -/

theorem removeThinkFuel_no_open :
    ∀ (fuel : Nat) (l : List Char), ¬ (thinkOpen <:+: l) → removeThinkFuel fuel l = l := by
  intro fuel
  induction fuel with
  | zero => intro l _; rfl
  | succ n ih =>
    intro l hl
    cases l with
    | nil => rfl
    | cons c cs =>
      rw [removeThinkFuel, if_neg, ih cs]
      · intro hin
        exact hl (hin.trans (List.suffix_cons c cs).isInfix)
      · intro hp
        exact hl (List.isPrefixOf_iff_prefix.mp hp).isInfix

theorem noNl_prefix_left {pat : List Char} (hnl : '\n' ∉ pat) :
    ∀ (u v : List Char), pat <+: u ++ '\n' :: v → pat <+: u := by
  induction pat with
  | nil => intro u v _; exact List.nil_prefix
  | cons p ps ih =>
    intro u v hp
    cases u with
    | nil =>
      obtain ⟨h, _⟩ := List.cons_prefix_cons.mp hp
      exact absurd (h ▸ List.mem_cons_self p ps) hnl
    | cons a u' =>
      obtain ⟨h, hp'⟩ := List.cons_prefix_cons.mp hp
      have := ih (fun hm => hnl (List.mem_cons_of_mem _ hm)) u' v hp'
      exact List.cons_prefix_cons.mpr ⟨h, this⟩

theorem noNl_infix_append {pat : List Char} (hnl : '\n' ∉ pat) :
    ∀ (u v : List Char), pat <:+: u ++ '\n' :: v → pat <:+: u ∨ pat <:+: v := by
  intro u
  induction u with
  | nil =>
    intro v h
    rcases List.infix_cons_iff.mp h with hpre | hinf
    · cases pat with
      | nil => exact Or.inl (List.infix_refl [])
      | cons p ps =>
        obtain ⟨hp, _⟩ := List.cons_prefix_cons.mp hpre
        exact absurd (hp ▸ List.mem_cons_self p ps) hnl
    · exact Or.inr hinf
  | cons a u' ih =>
    intro v h
    rcases List.infix_cons_iff.mp h with hpre | hinf
    · exact Or.inl (noNl_prefix_left hnl (a :: u') v hpre).isInfix
    · rcases ih v hinf with h' | h'
      · exact Or.inl (h'.trans (List.suffix_cons a u').isInfix)
      · exact Or.inr h'

theorem joinLines_within {pat : List Char} (hnl : '\n' ∉ pat) (hne : pat ≠ []) :
    ∀ L : List (List Char), pat <:+: joinLines L → ∃ x ∈ L, pat <:+: x := by
  intro L
  induction L with
  | nil => intro h; rw [joinLines] at h; exact absurd (List.infix_nil.mp h) hne
  | cons x L ih =>
    intro h
    cases L with
    | nil => exact ⟨x, List.mem_singleton_self x, by rwa [joinLines] at h⟩
    | cons y L' =>
      rw [joinLines] at h
      rcases noNl_infix_append hnl x (joinLines (y :: L')) h with h' | h'
      · exact ⟨x, List.mem_cons_self _ _, h'⟩
      · obtain ⟨z, hz, hz'⟩ := ih h'
        exact ⟨z, List.mem_cons_of_mem _ hz, hz'⟩

theorem splitlinesAux_within :
    ∀ (l acc : List Char) (x : List Char), x ∈ splitlinesAux l acc →
      x <:+: acc.reverse ++ l := by
  intro l acc
  induction l, acc using splitlinesAux.induct with
  | case1 acc ha =>
    intro x hx
    rw [splitlinesAux_nil, if_pos ha] at hx
    simp at hx
  | case2 acc ha =>
    intro x hx
    rw [splitlinesAux_nil, if_neg ha] at hx
    rcases List.mem_singleton.mp hx with rfl
    exact (List.prefix_append _ _).isInfix
  | case3 rest acc ih =>
    intro x hx
    rcases List.mem_cons.mp hx with rfl | hx'
    · exact (List.prefix_append _ _).isInfix
    · have h1 := ih x hx'
      simp only [List.reverse_nil, List.nil_append] at h1
      exact h1.trans
        (((List.suffix_cons '\n' rest).trans (List.suffix_cons '\r' _)).isInfix.trans
          (List.suffix_append acc.reverse _).isInfix)
  | case4 c0 cs acc hne hbr ih =>
    intro x hx
    rw [splitlinesAux_cons_br hbr hne] at hx
    rcases List.mem_cons.mp hx with rfl | hx'
    · exact (List.prefix_append _ _).isInfix
    · have h1 := ih x hx'
      simp only [List.reverse_nil, List.nil_append] at h1
      exact h1.trans
        ((List.suffix_cons c0 cs).isInfix.trans (List.suffix_append acc.reverse _).isInfix)
  | case5 c0 cs acc hne hbr ih =>
    intro x hx
    rw [splitlinesAux_cons_nb (by simpa using hbr)] at hx
    have h1 := ih x hx
    have : (c0 :: acc).reverse ++ cs = acc.reverse ++ c0 :: cs := by
      simp
    rwa [this] at h1

theorem splitlinesAux_noBreak :
    ∀ (l acc : List Char) (x : List Char), x ∈ splitlinesAux l acc →
      (∀ c ∈ acc, isLineBreak c = false) → ∀ c ∈ x, isLineBreak c = false := by
  intro l acc
  induction l, acc using splitlinesAux.induct with
  | case1 acc ha =>
    intro x hx hacc c hc
    rw [splitlinesAux_nil, if_pos ha] at hx
    simp at hx
  | case2 acc ha =>
    intro x hx hacc c hc
    rw [splitlinesAux_nil, if_neg ha] at hx
    rcases List.mem_singleton.mp hx with rfl
    exact hacc c (by simpa using hc)
  | case3 rest acc ih =>
    intro x hx hacc c hc
    rcases List.mem_cons.mp hx with rfl | hx'
    · exact hacc c (by simpa using hc)
    · exact ih x hx' (by simp) c hc
  | case4 c0 cs acc hne hbr ih =>
    intro x hx hacc c hc
    rw [splitlinesAux_cons_br hbr hne] at hx
    rcases List.mem_cons.mp hx with rfl | hx'
    · exact hacc c (by simpa using hc)
    · exact ih x hx' (by simp) c hc
  | case5 c0 cs acc hne hbr ih =>
    intro x hx hacc c hc
    rw [splitlinesAux_cons_nb (by simpa using hbr)] at hx
    refine ih x hx ?_ c hc
    intro a ha
    rcases List.mem_cons.mp ha with rfl | ha'
    · simpa using hbr
    · exact hacc a ha'

theorem splitlinesAux_append_nb :
    ∀ (x : List Char), (∀ c ∈ x, isLineBreak c = false) →
      ∀ (l acc : List Char), splitlinesAux (x ++ l) acc = splitlinesAux l (x.reverse ++ acc) := by
  intro x
  induction x with
  | nil => intro _ l acc; simp
  | cons c x' ih =>
    intro hx l acc
    have hc : isLineBreak c = false := hx c (List.mem_cons_self _ _)
    rw [List.cons_append, splitlinesAux_cons_nb hc,
      ih (fun a ha => hx a (List.mem_cons_of_mem _ ha)) l (c :: acc)]
    congr 1
    simp

theorem splitlines_joinLines :
    ∀ L : List (List Char),
      (∀ x ∈ L, x ≠ [] ∧ ∀ c ∈ x, isLineBreak c = false) →
      splitlines (joinLines L) = L := by
  intro L
  induction L with
  | nil => intro _; rfl
  | cons x L ih =>
    intro hL
    obtain ⟨hxne, hxnb⟩ := hL x (List.mem_cons_self _ _)
    cases L with
    | nil =>
      show splitlinesAux (joinLines [x]) [] = [x]
      rw [joinLines, ← List.append_nil x, splitlinesAux_append_nb x hxnb [] [],
        splitlinesAux_nil]
      rw [if_neg (by simp [List.isEmpty_iff, hxne])]
      simp
    | cons y L' =>
      show splitlinesAux (joinLines (x :: y :: L')) [] = x :: y :: L'
      rw [joinLines, splitlinesAux_append_nb x hxnb _ [], splitlinesAux_nl]
      have ihh : splitlines (joinLines (y :: L')) = y :: L' :=
        ih (fun z hz => hL z (List.mem_cons_of_mem _ hz))
      rw [show splitlinesAux (joinLines (y :: L')) [] = splitlines (joinLines (y :: L')) from rfl,
        ihh]
      simp

theorem cleanLines_mem {l x : List Char} (hx : x ∈ cleanLines l) :
    x ≠ [] ∧ (∀ c ∈ x, isLineBreak c = false) ∧ strip pyWhitespace x = x := by
  have hx1 : x ∈ (splitlines l).map (strip pyWhitespace) := (List.mem_filter.mp hx).1
  have hx2 := (List.mem_filter.mp hx).2
  obtain ⟨line, hline, rfl⟩ := List.mem_map.mp hx1
  refine ⟨by simpa [List.isEmpty_iff] using hx2, ?_, strip_idem pyWhitespace line⟩
  intro c hc
  exact splitlinesAux_noBreak l [] line hline (by simp) c (strip_subset pyWhitespace line hc)

theorem cleanL_idem (l : List Char) : cleanL (cleanL l) = cleanL l := by
  have hsplit : splitlines (joinLines (cleanLines l)) = cleanLines l :=
    splitlines_joinLines (cleanLines l)
      (fun x hx => ⟨(cleanLines_mem hx).1, (cleanLines_mem hx).2.1⟩)
  have hmap : (cleanLines l).map (strip pyWhitespace) = cleanLines l := by
    conv_rhs => rw [← List.map_id (cleanLines l)]
    exact List.map_congr_left (fun x hx => (cleanLines_mem hx).2.2)
  have hfil : (cleanLines l).filter (fun x => !x.isEmpty) = cleanLines l :=
    List.filter_eq_self.mpr
      (fun x hx => by simp [List.isEmpty_iff, (cleanLines_mem hx).1])
  show joinLines (cleanLines (joinLines (cleanLines l))) = joinLines (cleanLines l)
  rw [show cleanLines (joinLines (cleanLines l)) =
        (((splitlines (joinLines (cleanLines l))).map (strip pyWhitespace)).filter
          (fun x => !x.isEmpty)) from rfl,
    hsplit, hmap, hfil]

theorem cleanL_no_open {l : List Char} (h : ¬ (thinkOpen <:+: l)) :
    ¬ (thinkOpen <:+: cleanL l) := by
  intro hin
  obtain ⟨x, hx, hinx⟩ := joinLines_within (by decide) (by decide) (cleanLines l) hin
  have hx1 : x ∈ (splitlines l).map (strip pyWhitespace) := (List.mem_filter.mp hx).1
  obtain ⟨line, hline, rfl⟩ := List.mem_map.mp hx1
  have h2 : thinkOpen <:+: line := hinx.trans (strip_within pyWhitespace line)
  have h3 : line <:+: l := by simpa using splitlinesAux_within l [] line hline
  exact h (h2.trans h3)

/-- C2, amended: the sanitizer is idempotent on every input containing no
occurrence of the `<think>` open tag (in general one `re.sub` pass can
splice a new think block together out of the fragments around a removed
block, see the counterexample). -/
theorem c2_idempotent_no_think (t : String) (h : ¬ (thinkOpen <:+: t.data)) :
    sanitize (sanitize t) = sanitize t := by
  have h1 : removeThinkL t.data = t.data := removeThinkFuel_no_open _ _ h
  have h2 : ¬ (thinkOpen <:+: cleanL t.data) := cleanL_no_open h
  have h3 : removeThinkL (cleanL t.data) = cleanL t.data := removeThinkFuel_no_open _ _ h2
  show String.mk (cleanL (removeThinkL (String.mk (cleanL (removeThinkL t.data))).data)) =
       String.mk (cleanL (removeThinkL t.data))
  rw [show (String.mk (cleanL (removeThinkL t.data))).data =
        cleanL (removeThinkL t.data) from rfl]
  rw [h1, h3, cleanL_idem]

/-- C2, witness: idempotence applied at the think-tag-free input `"abc"`. -/
theorem c2_witness : sanitize (sanitize "abc") = sanitize "abc" :=
  c2_idempotent_no_think "abc" (by decide)
